import Mathlib

/-!
Verification of the recurrence-projection and delta-reconciliation engine of
`cleanup_forecast.py`, a YNAB forecast manager.

The embedding models:
- calendar dates and the `dateutil.relativedelta` arithmetic the script uses
  (pure day-stepping, month arithmetic with day clamping, year arithmetic);
- `get_frequency_step`, the frequency-to-offset table;
- `generate_twice_a_month_dates`, the irregular twice-monthly generator;
- the projection loop of `main` (eligibility filters and the forward walk),
  with the unbounded `while` loops rendered as fuel recursion whose fuel is
  proven adequate;
- the signature scheme `make_signature` and the delta reconciliation of
  STEP 4 of `main` (Python dicts rendered as insertion-ordered association
  lists with last-write-wins update, as dict comprehensions behave).
-/

namespace YnabForecast

/-- A calendar date, as Python's `datetime.date` triple. -/
structure Date where
  year : Nat
  month : Nat
  day : Nat
deriving DecidableEq, Repr

/-- Gregorian leap-year rule (Python `calendar.isleap`). -/
def isLeapYear (y : Nat) : Bool :=
  y % 4 == 0 && (y % 100 != 0 || y % 400 == 0)

/-- Number of days in a month of a given year. -/
def daysInMonth (y m : Nat) : Nat :=
  if m = 2 then (if isLeapYear y then 29 else 28)
  else if m = 4 ∨ m = 6 ∨ m = 9 ∨ m = 11 then 30
  else 31

/-- A structurally valid calendar date (what `datetime.date` can hold,
apart from the year range). -/
def Date.valid (d : Date) : Prop :=
  1 ≤ d.month ∧ d.month ≤ 12 ∧ 1 ≤ d.day ∧ d.day ≤ daysInMonth d.year d.month

instance : DecidablePred Date.valid := fun d => by
  unfold Date.valid; infer_instance

/-- Lexicographic strict order on dates, matching Python date comparison. -/
def dateLt (a b : Date) : Prop :=
  a.year < b.year ∨ (a.year = b.year ∧
    (a.month < b.month ∨ (a.month = b.month ∧ a.day < b.day)))

def dateLe (a b : Date) : Prop := dateLt a b ∨ a = b

instance : LT Date := ⟨dateLt⟩
instance : LE Date := ⟨dateLe⟩

instance (a b : Date) : Decidable (a < b) := by
  show Decidable (dateLt a b); unfold dateLt; infer_instance

instance (a b : Date) : Decidable (a ≤ b) := by
  show Decidable (dateLe a b); unfold dateLe dateLt; exact instDecidableOr

theorem Date.lt_def (a b : Date) : a < b ↔
    (a.year < b.year ∨ (a.year = b.year ∧
      (a.month < b.month ∨ (a.month = b.month ∧ a.day < b.day)))) := Iff.rfl

theorem Date.le_def (a b : Date) : a ≤ b ↔ (a < b ∨ a = b) := Iff.rfl

theorem Date.eq_iff (a b : Date) :
    a = b ↔ (a.year = b.year ∧ a.month = b.month ∧ a.day = b.day) := by
  cases a; cases b; simp [Date.mk.injEq]

theorem date_le_refl (a : Date) : a ≤ a := Or.inr rfl

theorem date_le_trans {a b c : Date} (h1 : a ≤ b) (h2 : b ≤ c) : a ≤ c := by
  simp only [Date.le_def, Date.lt_def, Date.eq_iff] at *
  omega

theorem date_lt_of_lt_of_le {a b c : Date} (h1 : a < b) (h2 : b ≤ c) : a < c := by
  simp only [Date.le_def, Date.lt_def, Date.eq_iff] at *
  omega

theorem date_lt_of_le_of_lt {a b c : Date} (h1 : a ≤ b) (h2 : b < c) : a < c := by
  simp only [Date.le_def, Date.lt_def, Date.eq_iff] at *
  omega

theorem date_lt_irrefl (a : Date) : ¬ a < a := by
  simp only [Date.lt_def]; omega

theorem date_le_of_lt {a b : Date} (h : a < b) : a ≤ b := Or.inl h

theorem date_le_total (a b : Date) : a ≤ b ∨ b ≤ a := by
  simp only [Date.le_def, Date.lt_def, Date.eq_iff]
  omega

theorem date_lt_of_le_of_ne {a b : Date} (h1 : a ≤ b) (h2 : a ≠ b) : a < b := by
  rcases h1 with h | h
  · exact h
  · exact absurd h h2

instance : IsTotal Date (· ≤ ·) := ⟨date_le_total⟩

instance : IsTrans Date (· ≤ ·) := ⟨fun _ _ _ => date_le_trans⟩

theorem daysInMonth_le (y m : Nat) : daysInMonth y m ≤ 31 := by
  unfold daysInMonth
  split
  · split <;> omega
  · split <;> omega

theorem daysInMonth_ge (y m : Nat) : 28 ≤ daysInMonth y m := by
  unfold daysInMonth
  split
  · split <;> omega
  · split <;> omega

/-- A scalar measure strictly monotone w.r.t. the date order on valid dates;
used to bound the fuel of the walking loops. -/
def dateScalar (d : Date) : Nat := d.year * 372 + d.month * 31 + d.day

theorem dateScalar_lt {a b : Date} (ha : a.valid) (hb : b.valid) (h : a < b) :
    dateScalar a < dateScalar b := by
  obtain ⟨ham1, ham2, had1, had2⟩ := ha
  obtain ⟨hbm1, hbm2, hbd1, hbd2⟩ := hb
  have h31a := daysInMonth_le a.year a.month
  have h31b := daysInMonth_le b.year b.month
  simp only [Date.lt_def] at h
  unfold dateScalar
  omega

theorem dateScalar_le {a b : Date} (ha : a.valid) (hb : b.valid) (h : a ≤ b) :
    dateScalar a ≤ dateScalar b := by
  rcases h with h | h
  · exact Nat.le_of_lt (dateScalar_lt ha hb h)
  · subst h; exact Nat.le_refl _

@[simp] theorem year_mk {y m dd : Nat} : (Date.mk y m dd).year = y := rfl

@[simp] theorem month_mk {y m dd : Nat} : (Date.mk y m dd).month = m := rfl

@[simp] theorem day_mk {y m dd : Nat} : (Date.mk y m dd).day = dd := rfl

/-- One day forward, with month and year rollover. -/
def nextDay (d : Date) : Date :=
  if d.day < daysInMonth d.year d.month then ⟨d.year, d.month, d.day + 1⟩
  else if d.month < 12 then ⟨d.year, d.month + 1, 1⟩
  else ⟨d.year + 1, 1, 1⟩

/-- `d + relativedelta(days = n)`. -/
def addDays (d : Date) : Nat → Date
  | 0 => d
  | n + 1 => addDays (nextDay d) n

/-- `d + relativedelta(months = n)`: month arithmetic with carry into the
year and the day clamped to the target month's length. -/
def addMonths (d : Date) (n : Nat) : Date :=
  ⟨(d.year * 12 + (d.month - 1) + n) / 12,
   (d.year * 12 + (d.month - 1) + n) % 12 + 1,
   min d.day (daysInMonth ((d.year * 12 + (d.month - 1) + n) / 12)
     ((d.year * 12 + (d.month - 1) + n) % 12 + 1))⟩

/-- `d + relativedelta(years = n)`: the day is clamped (Feb 29 → Feb 28). -/
def addYears (d : Date) (n : Nat) : Date :=
  ⟨d.year + n, d.month, min d.day (daysInMonth (d.year + n) d.month)⟩

theorem nextDay_valid {d : Date} (h : d.valid) : (nextDay d).valid := by
  obtain ⟨y, m, dd⟩ := d
  simp only [Date.valid, year_mk, month_mk, day_mk] at h
  have hg1 := daysInMonth_ge y (m + 1)
  have hg2 := daysInMonth_ge (y + 1) 1
  unfold nextDay
  simp only [year_mk, month_mk, day_mk]
  split
  · simp only [Date.valid, year_mk, month_mk, day_mk]; omega
  · split
    · simp only [Date.valid, year_mk, month_mk, day_mk]; omega
    · simp only [Date.valid, year_mk, month_mk, day_mk]; omega

theorem lt_nextDay {d : Date} (h : d.valid) : d < nextDay d := by
  obtain ⟨y, m, dd⟩ := d
  simp only [Date.valid, year_mk, month_mk, day_mk] at h
  unfold nextDay
  simp only [year_mk, month_mk, day_mk]
  split
  · simp only [Date.lt_def, year_mk, month_mk, day_mk, true_and, and_true, false_or, or_false]; omega
  · split
    · simp only [Date.lt_def, year_mk, month_mk, day_mk, true_and, and_true, false_or, or_false]; omega
    · simp only [Date.lt_def, year_mk, month_mk, day_mk, true_and, and_true, false_or, or_false]; omega

theorem addDays_valid {d : Date} (h : d.valid) (n : Nat) : (addDays d n).valid := by
  induction n generalizing d with
  | zero => exact h
  | succ k ih => exact ih (nextDay_valid h)

theorem le_addDays {d : Date} (h : d.valid) (n : Nat) : d ≤ addDays d n := by
  induction n generalizing d with
  | zero => exact date_le_refl d
  | succ k ih =>
    exact date_le_trans (date_le_of_lt (lt_nextDay h)) (ih (nextDay_valid h))

theorem lt_addDays {d : Date} (h : d.valid) {n : Nat} (hn : 1 ≤ n) :
    d < addDays d n := by
  cases n with
  | zero => omega
  | succ k =>
    show d < addDays (nextDay d) k
    exact date_lt_of_lt_of_le (lt_nextDay h) (le_addDays (nextDay_valid h) k)

theorem addMonths_valid {d : Date} (h : d.valid) (n : Nat) : (addMonths d n).valid := by
  obtain ⟨y, m, dd⟩ := d
  simp only [Date.valid, year_mk, month_mk, day_mk] at h
  unfold addMonths
  simp only [Date.valid, year_mk, month_mk, day_mk]
  have hmod := Nat.mod_lt (y * 12 + (m - 1) + n) (show 0 < 12 by omega)
  have hge := daysInMonth_ge ((y * 12 + (m - 1) + n) / 12)
    ((y * 12 + (m - 1) + n) % 12 + 1)
  omega

theorem addMonths_month_bounds (d : Date) (n : Nat) :
    1 ≤ (addMonths d n).month ∧ (addMonths d n).month ≤ 12 := by
  obtain ⟨y, m, dd⟩ := d
  unfold addMonths
  simp only [year_mk, month_mk, day_mk]
  have := Nat.mod_lt (y * 12 + (m - 1) + n) (show 0 < 12 by omega)
  omega

theorem addMonths_monthIdx {d : Date} (h1 : 1 ≤ d.month) (n : Nat) :
    (addMonths d n).year * 12 + (addMonths d n).month =
      d.year * 12 + d.month + n := by
  obtain ⟨y, m, dd⟩ := d
  simp only [month_mk] at h1
  unfold addMonths
  simp only [year_mk, month_mk, day_mk]
  have := Nat.div_add_mod (y * 12 + (m - 1) + n) 12
  omega

theorem addMonths_day {d : Date} (n : Nat) :
    (addMonths d n).day = min d.day
      (daysInMonth (addMonths d n).year (addMonths d n).month) := rfl

theorem lt_addMonths {d : Date} (h : d.valid) {n : Nat} (hn : 1 ≤ n) :
    d < addMonths d n := by
  have h1 : 1 ≤ d.month := h.1
  have h2 : d.month ≤ 12 := h.2.1
  have hmi := addMonths_monthIdx h1 n
  have hmb := addMonths_month_bounds d n
  simp only [Date.lt_def]
  omega

theorem addYears_valid {d : Date} (h : d.valid) (n : Nat) : (addYears d n).valid := by
  obtain ⟨y, m, dd⟩ := d
  simp only [Date.valid, year_mk, month_mk, day_mk] at h
  unfold addYears
  simp only [Date.valid, year_mk, month_mk, day_mk]
  have := daysInMonth_ge (y + n) m
  omega

theorem lt_addYears {d : Date} {n : Nat} (hn : 1 ≤ n) : d < addYears d n := by
  obtain ⟨y, m, dd⟩ := d
  unfold addYears
  simp only [Date.lt_def, year_mk, month_mk, day_mk]
  omega

/-- A `relativedelta` of the single-unit shapes the script constructs. -/
inductive CalendarOffset where
  | days (n : Nat)
  | weeks (n : Nat)
  | months (n : Nat)
  | years (n : Nat)
deriving DecidableEq, Repr

/-- `d + offset` for the offset shapes used by the script. -/
def addOffset (d : Date) : CalendarOffset → Date
  | .days n => addDays d n
  | .weeks n => addDays d (7 * n)
  | .months n => addMonths d n
  | .years n => addYears d n

/-- The offset advances by at least one unit. -/
def CalendarOffset.pos : CalendarOffset → Prop
  | .days n => 1 ≤ n
  | .weeks n => 1 ≤ n
  | .months n => 1 ≤ n
  | .years n => 1 ≤ n

theorem addOffset_valid {d : Date} (h : d.valid) (off : CalendarOffset) :
    (addOffset d off).valid := by
  cases off with
  | days n => exact addDays_valid h n
  | weeks n => exact addDays_valid h (7 * n)
  | months n => exact addMonths_valid h n
  | years n => exact addYears_valid h n

theorem lt_addOffset {d : Date} (h : d.valid) {off : CalendarOffset}
    (hp : off.pos) : d < addOffset d off := by
  cases off with
  | days n => exact lt_addDays h hp
  | weeks n => exact lt_addDays h (by have : 1 ≤ n := hp; omega)
  | months n => exact lt_addMonths h hp
  | years n => exact lt_addYears hp

theorem dateScalar_addOffset {d : Date} (h : d.valid) {off : CalendarOffset}
    (hp : off.pos) : dateScalar d + 1 ≤ dateScalar (addOffset d off) :=
  dateScalar_lt h (addOffset_valid h off) (lt_addOffset h hp)

/-! ## The frequency table (`get_frequency_step`) -/

/-- `get_frequency_step` of `cleanup_forecast.py`: the `relativedelta` step
for a given YNAB frequency, `none` for unmapped values.  The Python dict has
pairwise-distinct keys, so `dict.get` coincides with this chain of equality
tests. -/
def get_frequency_step (frequency : String) : Option CalendarOffset :=
  if frequency = "daily" then some (.days 1)
  else if frequency = "weekly" then some (.weeks 1)
  else if frequency = "everyOtherWeek" then some (.weeks 2)
  else if frequency = "every4Weeks" then some (.weeks 4)
  else if frequency = "monthly" then some (.months 1)
  else if frequency = "everyOtherMonth" then some (.months 2)
  else if frequency = "every3Months" then some (.months 3)
  else if frequency = "every4Months" then some (.months 4)
  else if frequency = "twiceAYear" then some (.months 6)
  else if frequency = "yearly" then some (.years 1)
  else if frequency = "everyOtherYear" then some (.years 2)
  else none

/-- The keys of the `frequency_map` dict. -/
def supportedFrequencies : List String :=
  ["daily", "weekly", "everyOtherWeek", "every4Weeks", "monthly",
   "everyOtherMonth", "every3Months", "every4Months", "twiceAYear",
   "yearly", "everyOtherYear"]

theorem get_frequency_step_of_not_mem {f : String}
    (h : f ∉ supportedFrequencies) : get_frequency_step f = none := by
  simp only [supportedFrequencies, List.mem_cons, List.not_mem_nil, or_false,
    not_or] at h
  obtain ⟨h1, h2, h3, h4, h5, h6, h7, h8, h9, h10, h11⟩ := h
  simp [get_frequency_step, h1, h2, h3, h4, h5, h6, h7, h8, h9, h10, h11]

theorem get_frequency_step_pos {f : String} {off : CalendarOffset}
    (h : get_frequency_step f = some off) : off.pos := by
  by_cases hf : f ∈ supportedFrequencies
  · simp only [supportedFrequencies, List.mem_cons, List.not_mem_nil,
      or_false] at hf
    rcases hf with rfl | rfl | rfl | rfl | rfl | rfl | rfl | rfl | rfl | rfl | rfl <;>
      (simp only [get_frequency_step, String.reduceEq, reduceIte,
         Option.some.injEq] at h;
       subst h; show 1 ≤ _; omega)
  · rw [get_frequency_step_of_not_mem hf] at h
    exact Option.noConfusion h

theorem get_frequency_step_ne_twiceAMonth {f : String} {off : CalendarOffset}
    (h : get_frequency_step f = some off) : f ≠ "twiceAMonth" := by
  intro hf
  subst hf
  simp [get_frequency_step] at h

/-! ## The forward walk of the regular-frequency projection

The Python loop

    curr_date = sched.date_next + step
    while curr_date <= horizon_date:
        emit(curr_date)
        curr_date = curr_date + step

is rendered as fuel recursion; `walkDates_fuel_stable` below proves the fuel
used by the projection is enough that the fuel case is never hit. -/

def walkDates (step : CalendarOffset) (horizon_date : Date) :
    Nat → Date → List Date
  | 0, _ => []
  | fuel + 1, curr =>
    if curr ≤ horizon_date then
      curr :: walkDates step horizon_date fuel (addOffset curr step)
    else []

/-- `n`-fold application of the step offset. -/
def iterOff (step : CalendarOffset) : Nat → Date → Date
  | 0, d => d
  | n + 1, d => iterOff step n (addOffset d step)

theorem iterOff_valid {d : Date} (h : d.valid) (step : CalendarOffset)
    (n : Nat) : (iterOff step n d).valid := by
  induction n generalizing d with
  | zero => exact h
  | succ k ih => exact ih (addOffset_valid h step)

theorem le_iterOff {d : Date} (h : d.valid) {step : CalendarOffset}
    (hp : step.pos) (n : Nat) : d ≤ iterOff step n d := by
  induction n generalizing d with
  | zero => exact date_le_refl d
  | succ k ih =>
    exact date_le_trans (date_le_of_lt (lt_addOffset h hp))
      (ih (addOffset_valid h step))

theorem lt_iterOff {d : Date} (h : d.valid) {step : CalendarOffset}
    (hp : step.pos) {n : Nat} (hn : 1 ≤ n) : d < iterOff step n d := by
  cases n with
  | zero => omega
  | succ k =>
    exact date_lt_of_lt_of_le (lt_addOffset h hp)
      (le_iterOff (addOffset_valid h step) hp k)

theorem dateScalar_iterOff {d : Date} (h : d.valid) {step : CalendarOffset}
    (hp : step.pos) (n : Nat) :
    dateScalar d + n ≤ dateScalar (iterOff step n d) := by
  induction n generalizing d with
  | zero => simp [iterOff]
  | succ k ih =>
    have h1 := dateScalar_addOffset h hp
    have h2 := ih (addOffset_valid h step)
    show dateScalar d + (k + 1) ≤ dateScalar (iterOff step k (addOffset d step))
    omega

theorem iterOff_mem_walkDates {step : CalendarOffset} {horizon_date : Date}
    (hvh : horizon_date.valid) (hp : step.pos) :
    ∀ (k : Nat) (cur : Date) (fuel : Nat), cur.valid →
      dateScalar horizon_date + 1 ≤ fuel + dateScalar cur →
      iterOff step k cur ≤ horizon_date →
      iterOff step k cur ∈ walkDates step horizon_date fuel cur := by
  intro k
  induction k with
  | zero =>
    intro cur fuel hvc hfuel hle
    have hcur : cur ≤ horizon_date := hle
    have hsc := dateScalar_le hvc hvh hcur
    cases fuel with
    | zero => omega
    | succ f =>
      unfold walkDates
      rw [if_pos hcur]
      exact List.mem_cons_self _ _
  | succ k ih =>
    intro cur fuel hvc hfuel hle
    have hva := addOffset_valid hvc step
    have heq : iterOff step (k + 1) cur = iterOff step k (addOffset cur step) :=
      rfl
    have hcur : cur ≤ horizon_date := by
      refine date_le_trans ?_ hle
      rw [heq]
      exact date_le_trans (date_le_of_lt (lt_addOffset hvc hp))
        (le_iterOff hva hp k)
    have hsc := dateScalar_le hvc hvh hcur
    have hsc2 := dateScalar_addOffset hvc hp
    cases fuel with
    | zero => omega
    | succ f =>
      unfold walkDates
      rw [if_pos hcur]
      rw [heq] at hle ⊢
      exact List.mem_cons_of_mem _ (ih (addOffset cur step) f hva (by omega) hle)

/-- Membership in the fueled walk, for adequate fuel: exactly the
iterates of the start that do not exceed the horizon. -/
theorem mem_walkDates {step : CalendarOffset} {horizon_date : Date}
    {fuel : Nat} {cur d : Date}
    (hvc : cur.valid) (hvh : horizon_date.valid) (hp : step.pos)
    (hfuel : dateScalar horizon_date + 1 ≤ fuel + dateScalar cur) :
    d ∈ walkDates step horizon_date fuel cur ↔
      (∃ k, d = iterOff step k cur ∧ d ≤ horizon_date) := by
  constructor
  · intro hd
    induction fuel generalizing cur with
    | zero => simp [walkDates] at hd
    | succ f ih =>
      unfold walkDates at hd
      split at hd
      · rcases List.mem_cons.mp hd with rfl | hd'
        · exact ⟨0, rfl, by assumption⟩
        · have hva := addOffset_valid hvc step
          have hsc := dateScalar_addOffset hvc hp
          obtain ⟨k, hk, hle⟩ := ih hva (by omega) hd'
          exact ⟨k + 1, hk, hle⟩
      · simp at hd
  · rintro ⟨k, rfl, hle⟩
    exact iterOff_mem_walkDates hvh hp k cur fuel hvc hfuel hle

end YnabForecast

namespace YnabForecast

/-! ## The twice-monthly generator (`generate_twice_a_month_dates`)

The Python loop starts at the first of `start_date`'s month and walks one
month at a time while `current <= horizon_date`; in each month it appends
the (capped) original day and a second day derived from the original day,
each guarded to lie in `[start_date, horizon_date]`, the second also
required to differ from the first; the collected list is then sorted.  The
`try/except ValueError` around `replace` can never fire because both day
values are capped at 28.  The loop is rendered with fuel
`horizon.year * 12 + horizon.month + 1`, proven adequate below. -/

def twiceMonthLoop (start_date horizon_date : Date) (original_day : Nat) :
    Nat → Date → List Date
  | 0, _ => []
  | fuel + 1, current =>
    if current ≤ horizon_date then
      (if start_date ≤ Date.mk current.year current.month (min original_day 28) ∧
          Date.mk current.year current.month (min original_day 28) ≤ horizon_date then
        [Date.mk current.year current.month (min original_day 28)]
      else []) ++
      ((if start_date ≤ Date.mk current.year current.month
            (min (if original_day ≤ 14 then original_day + 14 else original_day - 14) 28) ∧
          Date.mk current.year current.month
            (min (if original_day ≤ 14 then original_day + 14 else original_day - 14) 28) ≤ horizon_date ∧
          Date.mk current.year current.month
            (min (if original_day ≤ 14 then original_day + 14 else original_day - 14) 28) ≠
            Date.mk current.year current.month (min original_day 28) then
        [Date.mk current.year current.month
          (min (if original_day ≤ 14 then original_day + 14 else original_day - 14) 28)]
      else []) ++
      twiceMonthLoop start_date horizon_date original_day fuel (addMonths current 1))
    else []

/-- `generate_twice_a_month_dates` of `cleanup_forecast.py`. -/
def generate_twice_a_month_dates (start_date horizon_date : Date) : List Date :=
  List.insertionSort (fun a b : Date => a ≤ b)
    (twiceMonthLoop start_date horizon_date start_date.day
      (horizon_date.year * 12 + horizon_date.month + 1)
      (Date.mk start_date.year start_date.month 1))

theorem mem_generate_iff_mem_loop {start_date horizon_date d : Date} :
    d ∈ generate_twice_a_month_dates start_date horizon_date ↔
      d ∈ twiceMonthLoop start_date horizon_date start_date.day
        (horizon_date.year * 12 + horizon_date.month + 1)
        (Date.mk start_date.year start_date.month 1) :=
  List.mem_insertionSort _

theorem mem_ite_singleton {α : Type} {c : Prop} [Decidable c] {a x : α} :
    a ∈ (if c then [x] else ([] : List α)) ↔ c ∧ a = x := by
  split
  · rename_i hc; simp [hc]
  · rename_i hc; simp [hc]

theorem pairwise_ite_singleton {α : Type} {R : α → α → Prop} {c : Prop}
    [Decidable c] {x : α} : List.Pairwise R (if c then [x] else []) := by
  split
  · exact List.pairwise_singleton _ _
  · exact List.Pairwise.nil

/-- Everything the loop emits lies in `[start_date, horizon_date]` and has
one of the two day-of-month values derived from `original_day`. -/
theorem twiceMonthLoop_mem {start_date horizon_date : Date}
    {original_day : Nat} {fuel : Nat} {current d : Date}
    (hd : d ∈ twiceMonthLoop start_date horizon_date original_day fuel current) :
    start_date ≤ d ∧ d ≤ horizon_date ∧
      (d.day = min original_day 28 ∨
        (d.day = min (if original_day ≤ 14 then original_day + 14
            else original_day - 14) 28 ∧ d.day ≠ min original_day 28)) := by
  induction fuel generalizing current with
  | zero => simp [twiceMonthLoop] at hd
  | succ f ih =>
    unfold twiceMonthLoop at hd
    split at hd
    · rw [List.mem_append] at hd
      rcases hd with h1 | h12
      · rw [mem_ite_singleton] at h1
        obtain ⟨⟨hg1, hg2⟩, rfl⟩ := h1
        exact ⟨hg1, hg2, Or.inl rfl⟩
      · rw [List.mem_append] at h12
        rcases h12 with h2 | h3
        · rw [mem_ite_singleton] at h2
          obtain ⟨⟨hg1, hg2, hg3⟩, rfl⟩ := h2
          refine ⟨hg1, hg2, Or.inr ⟨rfl, ?_⟩⟩
          intro hday
          exact hg3 (by
            rw [Date.eq_iff]
            exact ⟨rfl, rfl, hday⟩)
        · exact ih h3
    · simp at hd

end YnabForecast

namespace YnabForecast

theorem addMonths_day_one {d : Date} (h : d.day = 1) (n : Nat) :
    (addMonths d n).day = 1 := by
  have hge := daysInMonth_ge (addMonths d n).year (addMonths d n).month
  rw [addMonths_day, h]
  omega

/-- Month-index invariant of the loop: everything emitted lives in a month
at or after the current one, with a normalized month number. -/
theorem twiceMonthLoop_monthIdx {start_date horizon_date : Date}
    {original_day : Nat} {fuel : Nat} {current d : Date}
    (hd : d ∈ twiceMonthLoop start_date horizon_date original_day fuel current)
    (hm1 : 1 ≤ current.month) (hm2 : current.month ≤ 12) :
    current.year * 12 + current.month ≤ d.year * 12 + d.month ∧
      1 ≤ d.month ∧ d.month ≤ 12 := by
  induction fuel generalizing current with
  | zero => simp [twiceMonthLoop] at hd
  | succ f ih =>
    unfold twiceMonthLoop at hd
    split at hd
    · rw [List.mem_append] at hd
      rcases hd with h1 | h12
      · rw [mem_ite_singleton] at h1
        obtain ⟨-, rfl⟩ := h1
        exact ⟨Nat.le_refl _, hm1, hm2⟩
      · rw [List.mem_append] at h12
        rcases h12 with h2 | h3
        · rw [mem_ite_singleton] at h2
          obtain ⟨-, rfl⟩ := h2
          exact ⟨Nat.le_refl _, hm1, hm2⟩
        · have hb := addMonths_month_bounds current 1
          have hidx := addMonths_monthIdx hm1 1
          have := ih h3 hb.1 hb.2
          omega
    · simp at hd

/-- The loop never emits the same date twice. -/
theorem twiceMonthLoop_nodup {start_date horizon_date : Date}
    {original_day : Nat} {fuel : Nat} {current : Date}
    (hm1 : 1 ≤ current.month) (hm2 : current.month ≤ 12) :
    List.Pairwise (fun a b : Date => a ≠ b)
      (twiceMonthLoop start_date horizon_date original_day fuel current) := by
  induction fuel generalizing current with
  | zero => simp [twiceMonthLoop]
  | succ f ih =>
    unfold twiceMonthLoop
    split
    · rw [List.pairwise_append]
      have hb := addMonths_month_bounds current 1
      have hidx := addMonths_monthIdx hm1 1
      refine ⟨pairwise_ite_singleton, ?_, ?_⟩
      · rw [List.pairwise_append]
        refine ⟨pairwise_ite_singleton, ih hb.1 hb.2, ?_⟩
        · intro a ha b hb'
          rw [mem_ite_singleton] at ha
          obtain ⟨-, rfl⟩ := ha
          have := twiceMonthLoop_monthIdx hb' hb.1 hb.2
          intro he
          rw [Date.eq_iff] at he
          simp only [year_mk, month_mk] at he
          omega
      · intro a ha b hb'
        rw [mem_ite_singleton] at ha
        obtain ⟨hg, rfl⟩ := ha
        rw [List.mem_append, mem_ite_singleton] at hb'
        rcases hb' with ⟨hg2, rfl⟩ | hb''
        · exact fun he => hg2.2.2 he.symm
        · have := twiceMonthLoop_monthIdx hb'' hb.1 hb.2
          intro he
          rw [Date.eq_iff] at he
          simp only [year_mk, month_mk] at he
          omega
    · exact List.Pairwise.nil

end YnabForecast

namespace YnabForecast

/-- Completeness of the loop for adequate fuel: any date in range, in a
normalized month at or after the current one, and with one of the two
derived day values, is emitted. -/
theorem twiceMonthLoop_mem_of {start_date horizon_date : Date}
    {original_day : Nat} :
    ∀ (fuel : Nat) (current d : Date),
      current.day = 1 → 1 ≤ current.month → current.month ≤ 12 →
      1 ≤ horizon_date.month →
      horizon_date.year * 12 + horizon_date.month + 1 ≤
        fuel + (current.year * 12 + current.month) →
      start_date ≤ d → d ≤ horizon_date →
      1 ≤ d.month → d.month ≤ 12 → 1 ≤ d.day →
      current.year * 12 + current.month ≤ d.year * 12 + d.month →
      (d.day = min original_day 28 ∨
        (d.day = min (if original_day ≤ 14 then original_day + 14
            else original_day - 14) 28 ∧ d.day ≠ min original_day 28)) →
      d ∈ twiceMonthLoop start_date horizon_date original_day fuel current := by
  intro fuel
  induction fuel with
  | zero =>
    intro current d hd1 hm1 hm2 hhm hfuel hsd hdh hdm1 hdm2 hdd1 hidx hday
    exfalso
    have hmono : d.year * 12 + d.month ≤
        horizon_date.year * 12 + horizon_date.month := by
      rcases hdh with h | h
      · simp only [dateLt] at h
        omega
      · subst h; omega
    omega
  | succ f ih =>
    intro current d hd1 hm1 hm2 hhm hfuel hsd hdh hdm1 hdm2 hdd1 hidx hday
    have hcur_le_d : current ≤ d := by
      simp only [Date.le_def, Date.lt_def, Date.eq_iff]
      omega
    have hcur : current ≤ horizon_date := date_le_trans hcur_le_d hdh
    unfold twiceMonthLoop
    rw [if_pos hcur]
    by_cases hsame : current.year * 12 + current.month = d.year * 12 + d.month
    · have hy : current.year = d.year := by omega
      have hm : current.month = d.month := by omega
      rcases hday with h1 | ⟨h2, hne⟩
      · refine List.mem_append.mpr (Or.inl ?_)
        rw [mem_ite_singleton]
        have hdeq : Date.mk current.year current.month (min original_day 28) = d := by
          rw [Date.eq_iff]
          exact ⟨hy, hm, h1.symm⟩
        rw [hdeq]
        exact ⟨⟨hsd, hdh⟩, rfl⟩
      · refine List.mem_append.mpr (Or.inr (List.mem_append.mpr (Or.inl ?_)))
        rw [mem_ite_singleton]
        have hdeq : Date.mk current.year current.month
            (min (if original_day ≤ 14 then original_day + 14
              else original_day - 14) 28) = d := by
          rw [Date.eq_iff]
          exact ⟨hy, hm, h2.symm⟩
        rw [hdeq]
        refine ⟨⟨hsd, hdh, ?_⟩, rfl⟩
        intro he
        rw [Date.eq_iff] at he
        simp only [year_mk, month_mk, day_mk] at he
        exact hne he.2.2
    · refine List.mem_append.mpr (Or.inr (List.mem_append.mpr (Or.inr ?_)))
      have hb := addMonths_month_bounds current 1
      have hidx2 := addMonths_monthIdx hm1 1
      exact ih (addMonths current 1) d (addMonths_day_one hd1 1) hb.1 hb.2
        hhm (by omega) hsd hdh hdm1 hdm2 hdd1 (by omega) hday

end YnabForecast

namespace YnabForecast

/-- The generator's output is strictly increasing (sorted, no duplicates). -/
theorem generate_pairwise_lt {start_date horizon_date : Date}
    (hm1 : 1 ≤ start_date.month) (hm2 : start_date.month ≤ 12) :
    List.Pairwise (fun a b : Date => a < b)
      (generate_twice_a_month_dates start_date horizon_date) := by
  have hsorted : List.Sorted (fun a b : Date => a ≤ b)
      (generate_twice_a_month_dates start_date horizon_date) :=
    List.sorted_insertionSort _ _
  have hperm := List.perm_insertionSort (fun a b : Date => a ≤ b)
    (twiceMonthLoop start_date horizon_date start_date.day
      (horizon_date.year * 12 + horizon_date.month + 1)
      (Date.mk start_date.year start_date.month 1))
  have hnodup0 : (twiceMonthLoop start_date horizon_date start_date.day
      (horizon_date.year * 12 + horizon_date.month + 1)
      (Date.mk start_date.year start_date.month 1)).Nodup :=
    twiceMonthLoop_nodup (by simp [hm1]) (by simp [hm2])
  have hnodup : (generate_twice_a_month_dates start_date horizon_date).Nodup :=
    hperm.nodup_iff.mpr hnodup0
  exact (hsorted.and hnodup).imp fun hab => date_lt_of_le_of_ne hab.1 hab.2

end YnabForecast

namespace YnabForecast

/-! ## The data model of the projection (STEP 2 of `main`) -/

/-- A YNAB scheduled transaction as the script reads it (the fields `main`
touches).  `date_next` is a required field of the YNAB model (every
scheduled transaction has one), so it is not optional here; note the
script's `if sched.date_next:` guard is vacuous for a date object, which is
always truthy in Python. -/
structure ScheduledTransaction where
  id : String
  deleted : Bool
  frequency : String
  payee_name : Option String
  memo : Option String
  amount : Int
  account_id : String
  category_id : Option String
  flag_color : Option String
  date_next : Date
  subtransactions : List String
deriving DecidableEq, Repr

/-- One entry of `desired_forecasts`: the dict the projection emits per
occurrence. -/
structure ForecastEntry where
  date : Date
  payee_name : String
  amount : Int
  account_id : String
  category_id : Option String
  memo : String
  flag_color : Option String
deriving DecidableEq, Repr

/-- The two warning-producing skips of the projection loop. -/
inductive SkipWarning where
  | splitSkip
  | memoSkip
deriving DecidableEq, Repr

/-- `FORECAST_PREFIX` of the script: the marker put in front of every
generated forecast's payee. -/
def FORECAST_MARKER : String := "🔮 Forecast |"

/-- Python's `needle in hay` substring test, on the character lists. -/
def listStartsWith : List Char → List Char → Bool
  | [], _ => true
  | _ :: _, [] => false
  | a :: as, b :: bs => a = b && listStartsWith as bs

def containsSubList (needle : List Char) : List Char → Bool
  | [] => listStartsWith needle []
  | c :: t => listStartsWith needle (c :: t) || containsSubList needle t

def strContains (hay needle : String) : Bool :=
  containsSubList needle.data hay.data

/-- Python `not s.strip()`: the string is empty or all whitespace. -/
def isBlankStr (s : String) : Bool :=
  s.data.all Char.isWhitespace

/-- The record pushed onto `desired_forecasts` for one occurrence date. -/
def mkForecastEntry (sched : ScheduledTransaction) (forecast_payee : String)
    (d : Date) : ForecastEntry :=
  { date := d
    payee_name := forecast_payee
    amount := sched.amount
    account_id := sched.account_id
    category_id := sched.category_id
    memo := "Forecast (Auto-Gen) from " ++ sched.frequency
    flag_color := sched.flag_color }

/-- The body of the STEP 2 loop of `main` for one scheduled transaction:
the candidate forecast entries it contributes, together with the warnings
it prints.  The filters appear in the script's order: deleted/one-time,
already-a-forecast, split, blank memo; then the `twiceAMonth` branch, then
the regular-frequency walk (whose fuel is adequate by
`mem_walkDates`). -/
def projectTemplate (horizon_date : Date) (sched : ScheduledTransaction) :
    List ForecastEntry × List SkipWarning :=
  if sched.deleted || sched.frequency == "never" then ([], [])
  else if strContains (sched.payee_name.getD "") FORECAST_MARKER then ([], [])
  else if sched.subtransactions ≠ [] then ([], [SkipWarning.splitSkip])
  else if isBlankStr ((sched.memo).getD "") then ([], [SkipWarning.memoSkip])
  else if sched.frequency == "twiceAMonth" then
    ((generate_twice_a_month_dates (addDays sched.date_next 1) horizon_date).map
      (mkForecastEntry sched
        (FORECAST_MARKER ++ " " ++ (sched.memo).getD "")), [])
  else
    match get_frequency_step sched.frequency with
    | none => ([], [])
    | some step =>
      ((walkDates step horizon_date (dateScalar horizon_date + 1)
          (addOffset sched.date_next step)).map
        (mkForecastEntry sched
          (FORECAST_MARKER ++ " " ++ (sched.memo).getD "")), [])

/-- The scheduled transaction `main` builds in STEP 6 when creating a
forecast: inflows (positive amounts) drop the category so the money
routes to Ready to Assign. -/
structure SaveScheduledTransaction where
  account_id : String
  date : Date
  amount : Int
  payee_name : String
  category_id : Option String
  memo : String
  frequency : String
  flag_color : Option String
deriving DecidableEq, Repr

def buildSaveScheduledTransaction (item : ForecastEntry) :
    SaveScheduledTransaction :=
  { account_id := item.account_id
    date := item.date
    amount := item.amount
    payee_name := item.payee_name
    category_id := if 0 < item.amount then none else item.category_id
    memo := item.memo
    frequency := "never"
    flag_color := item.flag_color }

end YnabForecast

namespace YnabForecast

/-! ## Signatures (STEP 4 of `main`)

`make_signature(dt, payee, amount)` is the f-string `f"{dt}|{payee}|{amount}"`.
Python renders a `date` as zero-padded ISO `YYYY-MM-DD` (the year of a
`datetime.date` is between 1 and 9999) and an `int` in decimal with a
leading `-` for negatives. -/

def digChar (n : Nat) : Char :=
  match n with
  | 0 => '0' | 1 => '1' | 2 => '2' | 3 => '3' | 4 => '4'
  | 5 => '5' | 6 => '6' | 7 => '7' | 8 => '8' | _ => '9'

def digVal (c : Char) : Nat :=
  match c with
  | '0' => 0 | '1' => 1 | '2' => 2 | '3' => 3 | '4' => 4
  | '5' => 5 | '6' => 6 | '7' => 7 | '8' => 8 | _ => 9

/-- Decimal digits of `n`, most significant first (with enough fuel). -/
def natStrAux : Nat → Nat → List Char
  | 0, _ => []
  | fuel + 1, n =>
    if n < 10 then [digChar n]
    else natStrAux fuel (n / 10) ++ [digChar (n % 10)]

/-- Python `str(n)` for a natural number. -/
def natStr (n : Nat) : List Char := natStrAux (n + 1) n

/-- Python `str(a)` for an integer. -/
def intStr (a : Int) : List Char :=
  if a < 0 then '-' :: natStr a.natAbs else natStr a.natAbs

def pad2 (n : Nat) : List Char := [digChar (n / 10 % 10), digChar (n % 10)]

def pad4 (n : Nat) : List Char :=
  [digChar (n / 1000 % 10), digChar (n / 100 % 10),
   digChar (n / 10 % 10), digChar (n % 10)]

/-- Python `str(d)` for a date: zero-padded ISO `YYYY-MM-DD`. -/
def dateAsStr (d : Date) : List Char :=
  pad4 d.year ++ '-' :: (pad2 d.month ++ '-' :: pad2 d.day)

/-- `make_signature` of `cleanup_forecast.py`. -/
def make_signature (dt : Date) (payee : String) (amount : Int) : String :=
  ⟨dateAsStr dt ++ '|' :: (payee.data ++ '|' :: intStr amount)⟩

/-- Python's f-string rendering of an optional string (`None` prints as
`"None"`). -/
def pyStr (o : Option String) : String :=
  match o with
  | some s => s
  | none => "None"

/-- The signature of a candidate (`desired_sigs` key). -/
def sigOfDesired (d : ForecastEntry) : String :=
  make_signature d.date d.payee_name d.amount

/-- The signature of an existing forecast (`existing_sigs` key). -/
def sigOfExisting (e : ScheduledTransaction) : String :=
  make_signature e.date_next (pyStr e.payee_name) e.amount

/-! ## The delta (STEP 4): Python dicts as insertion-ordered
association lists with last-write-wins update. -/

def dictInsert {α : Type} (k : String) (v : α) :
    List (String × α) → List (String × α)
  | [] => [(k, v)]
  | (k2, v2) :: rest =>
    if k2 = k then (k2, v) :: rest else (k2, v2) :: dictInsert k v rest

def buildDict {α : Type} (keyOf : α → String) (xs : List α) :
    List (String × α) :=
  xs.foldl (fun d x => dictInsert (keyOf x) x d) []

def dictKeys {α : Type} (d : List (String × α)) : List String :=
  d.map Prod.fst

/-- `desired_sigs` of `main`. -/
def desiredSigs (desired : List ForecastEntry) : List (String × ForecastEntry) :=
  buildDict sigOfDesired desired

/-- `existing_sigs` of `main`. -/
def existingSigs (existing : List ScheduledTransaction) :
    List (String × ScheduledTransaction) :=
  buildDict sigOfExisting existing

/-- `to_delete` of `main`: existing records whose signature is not a
desired key, in dict order. -/
def reconcileToDelete (desired : List ForecastEntry)
    (existing : List ScheduledTransaction) : List ScheduledTransaction :=
  ((existingSigs existing).filter
    (fun kv => decide (kv.1 ∉ dictKeys (desiredSigs desired)))).map Prod.snd

/-- `to_create` of `main`: desired records whose signature is not an
existing key, in dict order. -/
def reconcileToCreate (desired : List ForecastEntry)
    (existing : List ScheduledTransaction) : List ForecastEntry :=
  ((desiredSigs desired).filter
    (fun kv => decide (kv.1 ∉ dictKeys (existingSigs existing)))).map Prod.snd

end YnabForecast

namespace YnabForecast

theorem mem_dictKeys_dictInsert {α : Type} {k k2 : String} {v : α}
    {d : List (String × α)} :
    k2 ∈ dictKeys (dictInsert k v d) ↔ k2 ∈ dictKeys d ∨ k2 = k := by
  induction d with
  | nil => simp [dictInsert, dictKeys]
  | cons p rest ih =>
    obtain ⟨pk, pv⟩ := p
    unfold dictInsert
    split
    · rename_i he
      subst he
      simp only [dictKeys, List.map_cons, List.mem_cons] at *
      tauto
    · simp only [dictKeys, List.map_cons, List.mem_cons] at *
      rw [ih]
      tauto

theorem mem_dictInsert {α : Type} {k : String} {v : α} {p : String × α}
    {d : List (String × α)} (h : p ∈ dictInsert k v d) :
    p ∈ d ∨ p = (k, v) := by
  induction d with
  | nil => simp [dictInsert] at h; tauto
  | cons q rest ih =>
    obtain ⟨qk, qv⟩ := q
    unfold dictInsert at h
    split at h
    · rename_i he
      subst he
      rcases List.mem_cons.mp h with rfl | h2
      · exact Or.inr rfl
      · exact Or.inl (List.mem_cons_of_mem _ h2)
    · rcases List.mem_cons.mp h with rfl | h2
      · exact Or.inl (List.mem_cons_self _ _)
      · rcases ih h2 with h3 | h3
        · exact Or.inl (List.mem_cons_of_mem _ h3)
        · exact Or.inr h3

theorem mem_buildDict_aux {α : Type} {keyOf : α → String} {xs : List α}
    {acc : List (String × α)} {p : String × α}
    (h : p ∈ xs.foldl (fun d x => dictInsert (keyOf x) x d) acc) :
    p ∈ acc ∨ (keyOf p.2 = p.1 ∧ p.2 ∈ xs) := by
  induction xs generalizing acc with
  | nil => exact Or.inl h
  | cons x rest ih =>
    rcases ih h with h2 | h2
    · rcases mem_dictInsert h2 with h3 | h3
      · exact Or.inl h3
      · subst h3
        exact Or.inr ⟨rfl, List.mem_cons_self _ _⟩
    · exact Or.inr ⟨h2.1, List.mem_cons_of_mem _ h2.2⟩

/-- Every entry of a built dict is keyed by its value's signature, and its
value comes from the input list. -/
theorem mem_buildDict {α : Type} {keyOf : α → String} {xs : List α}
    {p : String × α} (h : p ∈ buildDict keyOf xs) :
    keyOf p.2 = p.1 ∧ p.2 ∈ xs := by
  rcases mem_buildDict_aux h with h2 | h2
  · simp at h2
  · exact h2

theorem mem_dictKeys_buildDict_aux {α : Type} {keyOf : α → String}
    {xs : List α} {acc : List (String × α)} {s : String} :
    s ∈ dictKeys (xs.foldl (fun d x => dictInsert (keyOf x) x d) acc) ↔
      s ∈ dictKeys acc ∨ ∃ x ∈ xs, keyOf x = s := by
  induction xs generalizing acc with
  | nil => simp
  | cons x rest ih =>
    show s ∈ dictKeys (rest.foldl _ (dictInsert (keyOf x) x acc)) ↔ _
    rw [ih, mem_dictKeys_dictInsert]
    constructor
    · rintro ((h | h) | h)
      · exact Or.inl h
      · exact Or.inr ⟨x, List.mem_cons_self _ _, h.symm⟩
      · obtain ⟨y, hy, hys⟩ := h
        exact Or.inr ⟨y, List.mem_cons_of_mem _ hy, hys⟩
    · rintro (h | ⟨y, hy, hys⟩)
      · exact Or.inl (Or.inl h)
      · rcases List.mem_cons.mp hy with rfl | hy2
        · exact Or.inl (Or.inr hys.symm)
        · exact Or.inr ⟨y, hy2, hys⟩

/-- A key is in a built dict exactly when some input has that signature. -/
theorem mem_dictKeys_buildDict {α : Type} {keyOf : α → String} {xs : List α}
    {s : String} :
    s ∈ dictKeys (buildDict keyOf xs) ↔ ∃ x ∈ xs, keyOf x = s := by
  unfold buildDict
  rw [mem_dictKeys_buildDict_aux]
  simp [dictKeys]

theorem mem_dictKeys_exists {α : Type} {d : List (String × α)} {s : String} :
    s ∈ dictKeys d ↔ ∃ v, (s, v) ∈ d := by
  unfold dictKeys
  rw [List.mem_map]
  constructor
  · rintro ⟨⟨pk, pv⟩, hp, rfl⟩
    exact ⟨pv, hp⟩
  · rintro ⟨v, hv⟩
    exact ⟨(s, v), hv, rfl⟩

/-- Signature-level characterization of `to_delete`: its signatures are
exactly the existing signatures that are not candidate signatures. -/
theorem toDelete_sig_iff (desired : List ForecastEntry)
    (existing : List ScheduledTransaction) (s : String) :
    (∃ r ∈ reconcileToDelete desired existing, sigOfExisting r = s) ↔
      ((∃ e ∈ existing, sigOfExisting e = s) ∧
        ¬ ∃ d ∈ desired, sigOfDesired d = s) := by
  constructor
  · rintro ⟨r, hr, rfl⟩
    unfold reconcileToDelete at hr
    rw [List.mem_map] at hr
    obtain ⟨kv, hkv, rfl⟩ := hr
    rw [List.mem_filter, decide_eq_true_iff] at hkv
    obtain ⟨hmem, hpred⟩ := hkv
    have hinv := @mem_buildDict _ sigOfExisting _ _ hmem
    refine ⟨⟨kv.2, hinv.2, rfl⟩, ?_⟩
    intro hd
    rw [hinv.1] at hd
    exact hpred (mem_dictKeys_buildDict.mpr hd)
  · rintro ⟨⟨e, he, rfl⟩, hnd⟩
    have hk : sigOfExisting e ∈ dictKeys (existingSigs existing) :=
      mem_dictKeys_buildDict.mpr ⟨e, he, rfl⟩
    obtain ⟨v, hv⟩ := mem_dictKeys_exists.mp hk
    have hinv := @mem_buildDict _ sigOfExisting _ _ hv
    refine ⟨v, ?_, hinv.1⟩
    unfold reconcileToDelete
    rw [List.mem_map]
    refine ⟨(sigOfExisting e, v), ?_, rfl⟩
    rw [List.mem_filter, decide_eq_true_iff]
    refine ⟨hv, ?_⟩
    intro hmem
    exact hnd (mem_dictKeys_buildDict.mp hmem)

/-- Signature-level characterization of `to_create`. -/
theorem toCreate_sig_iff (desired : List ForecastEntry)
    (existing : List ScheduledTransaction) (s : String) :
    (∃ c ∈ reconcileToCreate desired existing, sigOfDesired c = s) ↔
      ((∃ d ∈ desired, sigOfDesired d = s) ∧
        ¬ ∃ e ∈ existing, sigOfExisting e = s) := by
  constructor
  · rintro ⟨r, hr, rfl⟩
    unfold reconcileToCreate at hr
    rw [List.mem_map] at hr
    obtain ⟨kv, hkv, rfl⟩ := hr
    rw [List.mem_filter, decide_eq_true_iff] at hkv
    obtain ⟨hmem, hpred⟩ := hkv
    have hinv := @mem_buildDict _ sigOfDesired _ _ hmem
    refine ⟨⟨kv.2, hinv.2, rfl⟩, ?_⟩
    intro hd
    rw [hinv.1] at hd
    exact hpred (mem_dictKeys_buildDict.mpr hd)
  · rintro ⟨⟨e, he, rfl⟩, hnd⟩
    have hk : sigOfDesired e ∈ dictKeys (desiredSigs desired) :=
      mem_dictKeys_buildDict.mpr ⟨e, he, rfl⟩
    obtain ⟨v, hv⟩ := mem_dictKeys_exists.mp hk
    have hinv := @mem_buildDict _ sigOfDesired _ _ hv
    refine ⟨v, ?_, hinv.1⟩
    unfold reconcileToCreate
    rw [List.mem_map]
    refine ⟨(sigOfDesired e, v), ?_, rfl⟩
    rw [List.mem_filter, decide_eq_true_iff]
    refine ⟨hv, ?_⟩
    intro hmem
    exact hnd (mem_dictKeys_buildDict.mp hmem)

/-- Elements of `to_delete` have no matching candidate signature. -/
theorem toDelete_not_in_desired {desired : List ForecastEntry}
    {existing : List ScheduledTransaction} {r : ScheduledTransaction}
    (hr : r ∈ reconcileToDelete desired existing) :
    ¬ ∃ d ∈ desired, sigOfDesired d = sigOfExisting r := by
  intro hd
  have := (toDelete_sig_iff desired existing (sigOfExisting r)).mp ⟨r, hr, rfl⟩
  exact this.2 hd

/-- Elements of `to_create` have no matching existing signature. -/
theorem toCreate_not_in_existing {desired : List ForecastEntry}
    {existing : List ScheduledTransaction} {c : ForecastEntry}
    (hc : c ∈ reconcileToCreate desired existing) :
    ¬ ∃ e ∈ existing, sigOfExisting e = sigOfDesired c := by
  intro he
  have := (toCreate_sig_iff desired existing (sigOfDesired c)).mp ⟨c, hc, rfl⟩
  exact this.2 he

end YnabForecast

namespace YnabForecast

/-- C1: Reconciliation is idempotent: whenever the existing records'
signature set equals the candidates' signature set (in particular after a
successful reconciliation of a projection against itself), `to_create` and
`to_delete` are both empty. -/
theorem C1_reconcile_idempotent (desired : List ForecastEntry)
    (existing : List ScheduledTransaction)
    (h1 : ∀ s ∈ existing.map sigOfExisting, s ∈ desired.map sigOfDesired)
    (h2 : ∀ s ∈ desired.map sigOfDesired, s ∈ existing.map sigOfExisting) :
    reconcileToCreate desired existing = [] ∧
      reconcileToDelete desired existing = [] := by
  constructor
  · unfold reconcileToCreate
    have hfil : (desiredSigs desired).filter
        (fun kv => decide (kv.1 ∉ dictKeys (existingSigs existing))) = [] := by
      rw [List.filter_eq_nil_iff]
      intro kv hkv
      have hinv := @mem_buildDict _ sigOfDesired _ _ hkv
      have hmem : kv.1 ∈ existing.map sigOfExisting := by
        refine h2 kv.1 ?_
        rw [List.mem_map]
        exact ⟨kv.2, hinv.2, hinv.1⟩
      rw [List.mem_map] at hmem
      obtain ⟨e, he, hse⟩ := hmem
      have : kv.1 ∈ dictKeys (existingSigs existing) :=
        mem_dictKeys_buildDict.mpr ⟨e, he, hse⟩
      simp [this]
    rw [hfil]
    rfl
  · unfold reconcileToDelete
    have hfil : (existingSigs existing).filter
        (fun kv => decide (kv.1 ∉ dictKeys (desiredSigs desired))) = [] := by
      rw [List.filter_eq_nil_iff]
      intro kv hkv
      have hinv := @mem_buildDict _ sigOfExisting _ _ hkv
      have hmem : kv.1 ∈ desired.map sigOfDesired := by
        refine h1 kv.1 ?_
        rw [List.mem_map]
        exact ⟨kv.2, hinv.2, hinv.1⟩
      rw [List.mem_map] at hmem
      obtain ⟨d, hd, hsd⟩ := hmem
      have : kv.1 ∈ dictKeys (desiredSigs desired) :=
        mem_dictKeys_buildDict.mpr ⟨d, hd, hsd⟩
      simp [this]
    rw [hfil]
    rfl

/-- Witness for C1 at a concrete already-reconciled state: one candidate
and one existing forecast with the same (date, payee, amount). -/
theorem C1_reconcile_idempotent_witness :
    reconcileToCreate
        [{ date := ⟨2024, 1, 7⟩, payee_name := "🔮 Forecast | Rent",
           amount := -100, account_id := "acct", category_id := some "cat",
           memo := "Forecast (Auto-Gen) from weekly", flag_color := none }]
        [{ id := "s1", deleted := false, frequency := "never",
           payee_name := some "🔮 Forecast | Rent",
           memo := some "Forecast (Auto-Gen) from weekly", amount := -100,
           account_id := "acct", category_id := some "cat",
           flag_color := none, date_next := ⟨2024, 1, 7⟩,
           subtransactions := [] }] = [] ∧
      reconcileToDelete
        [{ date := ⟨2024, 1, 7⟩, payee_name := "🔮 Forecast | Rent",
           amount := -100, account_id := "acct", category_id := some "cat",
           memo := "Forecast (Auto-Gen) from weekly", flag_color := none }]
        [{ id := "s1", deleted := false, frequency := "never",
           payee_name := some "🔮 Forecast | Rent",
           memo := some "Forecast (Auto-Gen) from weekly", amount := -100,
           account_id := "acct", category_id := some "cat",
           flag_color := none, date_next := ⟨2024, 1, 7⟩,
           subtransactions := [] }] = [] :=
  C1_reconcile_idempotent _ _ (by decide) (by decide)

end YnabForecast

namespace YnabForecast

/-- Scenario B, candidate side: forecasts at day 7 and day 21. -/
def scenarioB_desired : List ForecastEntry :=
  [{ date := ⟨2024, 1, 7⟩, payee_name := "🔮 Forecast | Rent",
     amount := -100, account_id := "acct", category_id := some "cat",
     memo := "Forecast (Auto-Gen) from weekly", flag_color := none },
   { date := ⟨2024, 1, 21⟩, payee_name := "🔮 Forecast | Rent",
     amount := -100, account_id := "acct", category_id := some "cat",
     memo := "Forecast (Auto-Gen) from weekly", flag_color := none }]

/-- Scenario B, existing side: forecasts at day 7 and day 14. -/
def scenarioB_existing : List ScheduledTransaction :=
  [{ id := "s7", deleted := false, frequency := "never",
     payee_name := some "🔮 Forecast | Rent",
     memo := some "Forecast (Auto-Gen) from weekly", amount := -100,
     account_id := "acct", category_id := some "cat", flag_color := none,
     date_next := ⟨2024, 1, 7⟩, subtransactions := [] },
   { id := "s14", deleted := false, frequency := "never",
     payee_name := some "🔮 Forecast | Rent",
     memo := some "Forecast (Auto-Gen) from weekly", amount := -100,
     account_id := "acct", category_id := some "cat", flag_color := none,
     date_next := ⟨2024, 1, 14⟩, subtransactions := [] }]

/-- C2: the reconciler partitions exactly by signature membership:
`to_delete` signatures are the existing signatures absent from the
candidates, `to_create` signatures are the candidate signatures absent
from the existing set, records whose signature appears in both sets are in
neither list, and scenario B (existing = day 7 and day 14, candidates =
day 7 and day 21) yields `to_create` = day 21 only and `to_delete` =
day 14 only, leaving day 7 untouched. -/
theorem C2_delta_partition :
    (∀ (desired : List ForecastEntry) (existing : List ScheduledTransaction)
        (s : String),
      (∃ r ∈ reconcileToDelete desired existing, sigOfExisting r = s) ↔
        ((∃ e ∈ existing, sigOfExisting e = s) ∧
          ¬ ∃ d ∈ desired, sigOfDesired d = s))
  ∧ (∀ (desired : List ForecastEntry) (existing : List ScheduledTransaction)
        (s : String),
      (∃ c ∈ reconcileToCreate desired existing, sigOfDesired c = s) ↔
        ((∃ d ∈ desired, sigOfDesired d = s) ∧
          ¬ ∃ e ∈ existing, sigOfExisting e = s))
  ∧ (∀ (desired : List ForecastEntry) (existing : List ScheduledTransaction),
      ∀ r ∈ reconcileToDelete desired existing,
        ¬ ∃ d ∈ desired, sigOfDesired d = sigOfExisting r)
  ∧ (∀ (desired : List ForecastEntry) (existing : List ScheduledTransaction),
      ∀ c ∈ reconcileToCreate desired existing,
        ¬ ∃ e ∈ existing, sigOfExisting e = sigOfDesired c)
  ∧ reconcileToCreate scenarioB_desired scenarioB_existing =
      [{ date := ⟨2024, 1, 21⟩, payee_name := "🔮 Forecast | Rent",
         amount := -100, account_id := "acct", category_id := some "cat",
         memo := "Forecast (Auto-Gen) from weekly", flag_color := none }]
  ∧ reconcileToDelete scenarioB_desired scenarioB_existing =
      [{ id := "s14", deleted := false, frequency := "never",
         payee_name := some "🔮 Forecast | Rent",
         memo := some "Forecast (Auto-Gen) from weekly", amount := -100,
         account_id := "acct", category_id := some "cat", flag_color := none,
         date_next := ⟨2024, 1, 14⟩, subtransactions := [] }] :=
  ⟨toDelete_sig_iff, toCreate_sig_iff,
   fun _ _ _ hr => toDelete_not_in_desired hr,
   fun _ _ _ hc => toCreate_not_in_existing hc,
   by decide, by decide⟩

end YnabForecast

namespace YnabForecast

/-- Witness for C2: in scenario B the deleted day-14 record has no
matching candidate signature. -/
theorem C2_delta_partition_witness :
    ¬ ∃ d ∈ scenarioB_desired, sigOfDesired d = sigOfExisting
      { id := "s14", deleted := false, frequency := "never",
        payee_name := some "🔮 Forecast | Rent",
        memo := some "Forecast (Auto-Gen) from weekly", amount := -100,
        account_id := "acct", category_id := some "cat", flag_color := none,
        date_next := ⟨2024, 1, 14⟩, subtransactions := [] } :=
  C2_delta_partition.2.2.1 scenarioB_desired scenarioB_existing
    { id := "s14", deleted := false, frequency := "never",
      payee_name := some "🔮 Forecast | Rent",
      memo := some "Forecast (Auto-Gen) from weekly", amount := -100,
      account_id := "acct", category_id := some "cat", flag_color := none,
      date_next := ⟨2024, 1, 14⟩, subtransactions := [] } (by decide)

end YnabForecast

namespace YnabForecast

/-- C9: the step lookup returns exactly the fixed offset of the frequency
table for each supported regular frequency, and `none` for the one-time
sentinel (`"never"`), the twice-monthly identifier, and any unrecognized
string. -/
theorem C9_frequency_table :
    (∀ f : String, f ∉ supportedFrequencies → get_frequency_step f = none)
  ∧ supportedFrequencies.map get_frequency_step =
      [some (.days 1), some (.weeks 1), some (.weeks 2), some (.weeks 4),
       some (.months 1), some (.months 2), some (.months 3), some (.months 4),
       some (.months 6), some (.years 1), some (.years 2)]
  ∧ get_frequency_step "never" = none
  ∧ get_frequency_step "twiceAMonth" = none :=
  ⟨fun _ => get_frequency_step_of_not_mem, by decide, by decide, by decide⟩

/-- Witness for C9: a concrete unrecognized frequency maps to `none`. -/
theorem C9_frequency_table_witness :
    ("fortnightly" ∉ supportedFrequencies) ∧
      get_frequency_step "fortnightly" = none :=
  ⟨by decide, C9_frequency_table.1 "fortnightly" (by decide)⟩

end YnabForecast

namespace YnabForecast

/-- C4: a template that is soft-deleted, one-time, already forecast-marked,
split, or memo-blank contributes no candidate; the filters apply in the
script's order, and only the split and blank-memo skips warn. -/
theorem C4_eligibility_filters (horizon_date : Date)
    (sched : ScheduledTransaction) :
    (sched.deleted = true → projectTemplate horizon_date sched = ([], []))
  ∧ (sched.frequency = "never" → projectTemplate horizon_date sched = ([], []))
  ∧ (sched.deleted = false → sched.frequency ≠ "never" →
      strContains (sched.payee_name.getD "") FORECAST_MARKER = true →
      projectTemplate horizon_date sched = ([], []))
  ∧ (sched.deleted = false → sched.frequency ≠ "never" →
      strContains (sched.payee_name.getD "") FORECAST_MARKER = false →
      sched.subtransactions ≠ [] →
      projectTemplate horizon_date sched = ([], [SkipWarning.splitSkip]))
  ∧ (sched.deleted = false → sched.frequency ≠ "never" →
      strContains (sched.payee_name.getD "") FORECAST_MARKER = false →
      sched.subtransactions = [] →
      isBlankStr ((sched.memo).getD "") = true →
      projectTemplate horizon_date sched = ([], [SkipWarning.memoSkip])) := by
  refine ⟨?_, ?_, ?_, ?_, ?_⟩
  · intro h
    simp [projectTemplate, h]
  · intro h
    simp [projectTemplate, h]
  · intro h1 h2 h3
    simp [projectTemplate, h1, h2, h3]
  · intro h1 h2 h3 h4
    simp [projectTemplate, h1, h2, h3, h4]
  · intro h1 h2 h3 h4 h5
    simp [projectTemplate, h1, h2, h3, h4, h5]

/-- Witness for C4 at concrete templates: a deleted template, a split
template, and a blank-memo template. -/
theorem C4_eligibility_filters_witness :
    projectTemplate ⟨2024, 3, 1⟩
      { id := "a", deleted := true, frequency := "weekly",
        payee_name := some "Rent", memo := some "Rent", amount := -100,
        account_id := "acct", category_id := none, flag_color := none,
        date_next := ⟨2024, 1, 1⟩, subtransactions := [] } = ([], [])
  ∧ projectTemplate ⟨2024, 3, 1⟩
      { id := "b", deleted := false, frequency := "weekly",
        payee_name := some "Rent", memo := some "Rent", amount := -100,
        account_id := "acct", category_id := none, flag_color := none,
        date_next := ⟨2024, 1, 1⟩, subtransactions := ["sub"] } =
      ([], [SkipWarning.splitSkip])
  ∧ projectTemplate ⟨2024, 3, 1⟩
      { id := "c", deleted := false, frequency := "weekly",
        payee_name := some "Rent", memo := some "  ", amount := -100,
        account_id := "acct", category_id := none, flag_color := none,
        date_next := ⟨2024, 1, 1⟩, subtransactions := [] } =
      ([], [SkipWarning.memoSkip]) :=
  ⟨(C4_eligibility_filters _ _).1 rfl,
   (C4_eligibility_filters _ _).2.2.2.1 rfl (by decide) (by decide) (by decide),
   (C4_eligibility_filters _ _).2.2.2.2 rfl (by decide) (by decide) rfl
     (by decide)⟩

end YnabForecast

namespace YnabForecast

@[simp] theorem mkForecastEntry_date {sched : ScheduledTransaction}
    {p : String} {d : Date} : (mkForecastEntry sched p d).date = d := rfl

@[simp] theorem mkForecastEntry_amount {sched : ScheduledTransaction}
    {p : String} {d : Date} :
    (mkForecastEntry sched p d).amount = sched.amount := rfl

@[simp] theorem mkForecastEntry_category {sched : ScheduledTransaction}
    {p : String} {d : Date} :
    (mkForecastEntry sched p d).category_id = sched.category_id := rfl

theorem buildSave_category (item : ForecastEntry) :
    (buildSaveScheduledTransaction item).category_id =
      if 0 < item.amount then none else item.category_id := rfl

/-- Every candidate a template contributes is `mkForecastEntry` of the
template at some date. -/
theorem projectTemplate_mem_shape {horizon_date : Date}
    {sched : ScheduledTransaction} {e : ForecastEntry}
    (he : e ∈ (projectTemplate horizon_date sched).1) :
    ∃ d, e = mkForecastEntry sched
      (FORECAST_MARKER ++ " " ++ (sched.memo).getD "") d := by
  unfold projectTemplate at he
  repeat' split at he
  all_goals try simp at he
  all_goals (obtain ⟨d, -, rfl⟩ := he; exact ⟨d, rfl⟩)

/-- C8: every projected candidate copies the template's amount and
category; when the amount is a strictly positive inflow the created
scheduled transaction's category reference is dropped (routes to Ready to
Assign), otherwise the template's category reference is kept. -/
theorem C8_inflow_category (horizon_date : Date)
    (sched : ScheduledTransaction) (e : ForecastEntry)
    (he : e ∈ (projectTemplate horizon_date sched).1) :
    e.amount = sched.amount ∧ e.category_id = sched.category_id
  ∧ (0 < sched.amount → (buildSaveScheduledTransaction e).category_id = none)
  ∧ (sched.amount ≤ 0 →
      (buildSaveScheduledTransaction e).category_id = sched.category_id) := by
  obtain ⟨d, rfl⟩ := projectTemplate_mem_shape he
  refine ⟨rfl, rfl, ?_, ?_⟩
  · intro h
    rw [buildSave_category, mkForecastEntry_amount, if_pos h]
  · intro h
    rw [buildSave_category, mkForecastEntry_amount, if_neg (by omega),
      mkForecastEntry_category]

/-- Witness for C8: a weekly inflow template projects an entry whose
created transaction has no category. -/
theorem C8_inflow_category_witness :
    (buildSaveScheduledTransaction
      { date := ⟨2024, 1, 8⟩, payee_name := "🔮 Forecast | Salary",
        amount := 100, account_id := "acct", category_id := some "cat",
        memo := "Forecast (Auto-Gen) from weekly",
        flag_color := none }).category_id = none :=
  (C8_inflow_category ⟨2024, 1, 10⟩
    { id := "w", deleted := false, frequency := "weekly",
      payee_name := some "Salary", memo := some "Salary", amount := 100,
      account_id := "acct", category_id := some "cat", flag_color := none,
      date_next := ⟨2024, 1, 1⟩, subtransactions := [] }
    { date := ⟨2024, 1, 8⟩, payee_name := "🔮 Forecast | Salary",
      amount := 100, account_id := "acct", category_id := some "cat",
      memo := "Forecast (Auto-Gen) from weekly", flag_color := none }
    (by decide)).2.2.1 (by decide)

end YnabForecast

namespace YnabForecast

/-- C6: the twice-monthly generator returns a strictly ascending list (so
sorted, with no duplicates) of dates inside `[start_date, horizon_date]`. -/
theorem C6_generator_contract (start_date horizon_date : Date)
    (hv : start_date.valid) (hle : start_date ≤ horizon_date) :
    List.Pairwise (fun a b : Date => a < b)
      (generate_twice_a_month_dates start_date horizon_date)
  ∧ ∀ d ∈ generate_twice_a_month_dates start_date horizon_date,
      start_date ≤ d ∧ d ≤ horizon_date := by
  refine ⟨generate_pairwise_lt hv.1 hv.2.1, ?_⟩
  intro d hd
  have h := twiceMonthLoop_mem (mem_generate_iff_mem_loop.mp hd)
  exact ⟨h.1, h.2.1⟩

/-- Witness for C6 at a concrete one-month window. -/
theorem C6_generator_contract_witness :
    List.Pairwise (fun a b : Date => a < b)
      (generate_twice_a_month_dates ⟨2024, 1, 20⟩ ⟨2024, 2, 19⟩)
  ∧ ∀ d ∈ generate_twice_a_month_dates ⟨2024, 1, 20⟩ ⟨2024, 2, 19⟩,
      (⟨2024, 1, 20⟩ : Date) ≤ d ∧ d ≤ ⟨2024, 2, 19⟩ :=
  C6_generator_contract ⟨2024, 1, 20⟩ ⟨2024, 2, 19⟩ (by decide) (by decide)

/-- Modelled from the spec §4.3 exactly as claim C5 words it: the anchor
day is the start date's day-of-month capped at 28, and the SECOND day is
computed from that capped anchor (anchor+14 if anchor ≤ 14, else
anchor−14).  Written only to compare against the code's
`generate_twice_a_month_dates`, whose second day is computed from the
UNCAPPED original day. -/
def generate_twice_spec_capped (start_date horizon_date : Date) : List Date :=
  List.insertionSort (fun a b : Date => a ≤ b)
    (twiceMonthLoop start_date horizon_date (min start_date.day 28)
      (horizon_date.year * 12 + horizon_date.month + 1)
      (Date.mk start_date.year start_date.month 1))

/-- C5 counterexample: for start date 2024-01-29 (day-of-month 29) and
horizon 2024-02-27, the code emits 2024-02-15 (second day computed from
the uncapped day 29: 29 − 14 = 15), while the claim's capped-anchor rule
(anchor 28, second day 28 − 14 = 14) predicts 2024-02-14. -/
theorem C5_counterexample :
    generate_twice_a_month_dates ⟨2024, 1, 29⟩ ⟨2024, 2, 27⟩ =
        [⟨2024, 2, 15⟩]
  ∧ generate_twice_spec_capped ⟨2024, 1, 29⟩ ⟨2024, 2, 27⟩ =
        [⟨2024, 2, 14⟩]
  ∧ generate_twice_a_month_dates ⟨2024, 1, 29⟩ ⟨2024, 2, 27⟩ ≠
      generate_twice_spec_capped ⟨2024, 1, 29⟩ ⟨2024, 2, 27⟩ := by
  decide

end YnabForecast

namespace YnabForecast

/-- C5 amended: the generator emits, per month of the window, the start
date's day-of-month capped at 28, and a second day computed from the
UNCAPPED original day-of-month (day+14 if day ≤ 14, else day−14) and then
capped at 28; the dates emitted are exactly those of this shape inside
`[start_date, horizon_date]`; the second day stays within 1–28; and for
anchor day 1 and a one-month window exactly two dates, 14 days apart, are
emitted. -/
theorem C5_amended_twice_policy (start_date horizon_date : Date)
    (hv : start_date.valid) (hvh : horizon_date.valid) :
    (∀ d : Date,
      d ∈ generate_twice_a_month_dates start_date horizon_date ↔
        (start_date ≤ d ∧ d ≤ horizon_date ∧ 1 ≤ d.month ∧ d.month ≤ 12 ∧
          (d.day = min start_date.day 28 ∨
            (d.day = min (if start_date.day ≤ 14 then start_date.day + 14
                else start_date.day - 14) 28 ∧
              d.day ≠ min start_date.day 28))))
  ∧ (1 ≤ min (if start_date.day ≤ 14 then start_date.day + 14
        else start_date.day - 14) 28 ∧
      min (if start_date.day ≤ 14 then start_date.day + 14
        else start_date.day - 14) 28 ≤ 28)
  ∧ generate_twice_a_month_dates ⟨2024, 1, 1⟩ ⟨2024, 1, 31⟩ =
      [⟨2024, 1, 1⟩, ⟨2024, 1, 15⟩] := by
  refine ⟨?_, ⟨?_, Nat.min_le_right _ _⟩, by decide⟩
  · intro d
    constructor
    · intro hd
      have hloop := mem_generate_iff_mem_loop.mp hd
      have hmem := twiceMonthLoop_mem hloop
      have hmi := twiceMonthLoop_monthIdx hloop
        (by simp [hv.1]) (by simp [hv.2.1])
      exact ⟨hmem.1, hmem.2.1, hmi.2.1, hmi.2.2, hmem.2.2⟩
    · rintro ⟨hsd, hdh, hdm1, hdm2, hday⟩
      rw [mem_generate_iff_mem_loop]
      have hdd1 : 1 ≤ d.day := by
        have hs1 : 1 ≤ start_date.day := hv.2.2.1
        rcases hday with h | ⟨h, -⟩ <;> rw [h] <;> (try split) <;> omega
      have hidx : start_date.year * 12 + start_date.month ≤
          d.year * 12 + d.month := by
        have hm1 := hv.1
        have hm2 := hv.2.1
        rcases hsd with h | h
        · simp only [dateLt] at h
          omega
        · subst h
          omega
      exact twiceMonthLoop_mem_of _ _ d rfl (by simp [hv.1]) (by simp [hv.2.1])
        hvh.1 (by simp) hsd hdh hdm1 hdm2 hdd1 (by simpa) hday
  · split <;> omega

/-- Witness for C5 amended: start day 20 emits 2024-02-06, whose day 6 is
min(20 − 14, 28) and differs from the capped anchor day 20. -/
theorem C5_amended_twice_policy_witness :
    (⟨2024, 2, 6⟩ : Date) ∈
      generate_twice_a_month_dates ⟨2024, 1, 20⟩ ⟨2024, 2, 10⟩ ↔
      ((⟨2024, 1, 20⟩ : Date) ≤ ⟨2024, 2, 6⟩ ∧
        (⟨2024, 2, 6⟩ : Date) ≤ ⟨2024, 2, 10⟩ ∧
        1 ≤ (⟨2024, 2, 6⟩ : Date).month ∧ (⟨2024, 2, 6⟩ : Date).month ≤ 12 ∧
        ((⟨2024, 2, 6⟩ : Date).day = min (⟨2024, 1, 20⟩ : Date).day 28 ∨
          ((⟨2024, 2, 6⟩ : Date).day =
              min (if (⟨2024, 1, 20⟩ : Date).day ≤ 14 then
                (⟨2024, 1, 20⟩ : Date).day + 14
                else (⟨2024, 1, 20⟩ : Date).day - 14) 28 ∧
            (⟨2024, 2, 6⟩ : Date).day ≠ min (⟨2024, 1, 20⟩ : Date).day 28))) :=
  (C5_amended_twice_policy ⟨2024, 1, 20⟩ ⟨2024, 2, 10⟩ (by decide)
    (by decide)).1 ⟨2024, 2, 6⟩

end YnabForecast

namespace YnabForecast

/-- A surviving template with a recognized regular frequency reduces to the
mapped forward walk. -/
theorem projectTemplate_regular {horizon_date : Date}
    {sched : ScheduledTransaction} {step : CalendarOffset}
    (hdel : sched.deleted = false) (hfreq : sched.frequency ≠ "never")
    (hpay : strContains (sched.payee_name.getD "") FORECAST_MARKER = false)
    (hsub : sched.subtransactions = [])
    (hmemo : isBlankStr ((sched.memo).getD "") = false)
    (hstep : get_frequency_step sched.frequency = some step) :
    projectTemplate horizon_date sched =
      ((walkDates step horizon_date (dateScalar horizon_date + 1)
          (addOffset sched.date_next step)).map
        (mkForecastEntry sched
          (FORECAST_MARKER ++ " " ++ (sched.memo).getD "")), []) := by
  have htw := get_frequency_step_ne_twiceAMonth hstep
  simp [projectTemplate, hdel, hfreq, hpay, hsub, hmemo, htw, hstep]

/-- C3: for a surviving template with a recognized regular frequency, the
emitted occurrence dates are exactly the iterates
`next_occurrence + k * step` for `k ≥ 1` that do not exceed the horizon;
the template's own next-occurrence date is never emitted, no emitted date
exceeds the horizon, and the first emitted date (when any) is exactly
`next_occurrence + one step`. -/
theorem C3_regular_projection (horizon_date : Date)
    (sched : ScheduledTransaction) (step : CalendarOffset)
    (hdel : sched.deleted = false) (hfreq : sched.frequency ≠ "never")
    (hpay : strContains (sched.payee_name.getD "") FORECAST_MARKER = false)
    (hsub : sched.subtransactions = [])
    (hmemo : isBlankStr ((sched.memo).getD "") = false)
    (hstep : get_frequency_step sched.frequency = some step)
    (hvn : sched.date_next.valid) (hvh : horizon_date.valid) :
    (∀ d : Date,
      (∃ e ∈ (projectTemplate horizon_date sched).1, e.date = d) ↔
        (∃ k, 1 ≤ k ∧ d = iterOff step k sched.date_next ∧
          d ≤ horizon_date))
  ∧ (∀ e ∈ (projectTemplate horizon_date sched).1,
      e.date ≠ sched.date_next ∧ e.date ≤ horizon_date)
  ∧ ((projectTemplate horizon_date sched).1.head?.map (fun e => e.date) =
      if addOffset sched.date_next step ≤ horizon_date then
        some (addOffset sched.date_next step)
      else none) := by
  have hp := get_frequency_step_pos hstep
  have hva := addOffset_valid hvn step
  have hfuel : dateScalar horizon_date + 1 ≤
      (dateScalar horizon_date + 1) +
        dateScalar (addOffset sched.date_next step) :=
    Nat.le_add_right _ _
  rw [projectTemplate_regular hdel hfreq hpay hsub hmemo hstep]
  have hmemdate : ∀ d : Date,
      (∃ e ∈ (walkDates step horizon_date (dateScalar horizon_date + 1)
          (addOffset sched.date_next step)).map
        (mkForecastEntry sched
          (FORECAST_MARKER ++ " " ++ (sched.memo).getD "")), e.date = d) ↔
      d ∈ walkDates step horizon_date (dateScalar horizon_date + 1)
        (addOffset sched.date_next step) := by
    intro d
    constructor
    · rintro ⟨e, he, rfl⟩
      rw [List.mem_map] at he
      obtain ⟨a, ha, rfl⟩ := he
      rwa [mkForecastEntry_date]
    · intro hd
      exact ⟨mkForecastEntry sched
        (FORECAST_MARKER ++ " " ++ (sched.memo).getD "") d,
        List.mem_map_of_mem _ hd, rfl⟩
  refine ⟨?_, ?_, ?_⟩
  · intro d
    rw [hmemdate d, mem_walkDates hva hvh hp hfuel]
    constructor
    · rintro ⟨k, rfl, hle⟩
      exact ⟨k + 1, by omega, rfl, hle⟩
    · rintro ⟨k, hk1, rfl, hle⟩
      cases k with
      | zero => omega
      | succ j => exact ⟨j, rfl, hle⟩
  · intro e he
    have hd := (hmemdate e.date).mp ⟨e, he, rfl⟩
    rw [mem_walkDates hva hvh hp hfuel] at hd
    obtain ⟨k, hk, hle⟩ := hd
    refine ⟨?_, hle⟩
    intro hown
    have hlt : sched.date_next < iterOff step (k + 1) sched.date_next :=
      lt_iterOff hvn hp (by omega)
    rw [show iterOff step (k + 1) sched.date_next =
        iterOff step k (addOffset sched.date_next step) from rfl, ← hk,
      hown] at hlt
    exact date_lt_irrefl _ hlt
  · rw [List.head?_map]
    by_cases hc : addOffset sched.date_next step ≤ horizon_date
    · rw [if_pos hc]
      show ((walkDates step horizon_date (dateScalar horizon_date + 1)
          (addOffset sched.date_next step)).head?.map
            (fun e => mkForecastEntry sched
              (FORECAST_MARKER ++ " " ++ (sched.memo).getD "") e)).map
          (fun e => e.date) = _
      unfold walkDates
      rw [if_pos hc]
      rfl
    · rw [if_neg hc]
      show ((walkDates step horizon_date (dateScalar horizon_date + 1)
          (addOffset sched.date_next step)).head?.map
            (fun e => mkForecastEntry sched
              (FORECAST_MARKER ++ " " ++ (sched.memo).getD "") e)).map
          (fun e => e.date) = _
      unfold walkDates
      rw [if_neg hc]
      rfl

end YnabForecast

namespace YnabForecast

/-- Witness for C3: a weekly template with next occurrence 2024-01-01 and
horizon 2024-03-01; the first emitted date is 2024-01-08. -/
theorem C3_regular_projection_witness :
    ((projectTemplate ⟨2024, 3, 1⟩
      { id := "w", deleted := false, frequency := "weekly",
        payee_name := some "Rent", memo := some "Rent", amount := -100,
        account_id := "acct", category_id := some "cat", flag_color := none,
        date_next := ⟨2024, 1, 1⟩,
        subtransactions := [] }).1.head?.map (fun e => e.date) =
      if addOffset (⟨2024, 1, 1⟩ : Date) (.weeks 1) ≤ ⟨2024, 3, 1⟩ then
        some (addOffset (⟨2024, 1, 1⟩ : Date) (.weeks 1))
      else none) :=
  (C3_regular_projection ⟨2024, 3, 1⟩
    { id := "w", deleted := false, frequency := "weekly",
      payee_name := some "Rent", memo := some "Rent", amount := -100,
      account_id := "acct", category_id := some "cat", flag_color := none,
      date_next := ⟨2024, 1, 1⟩, subtransactions := [] }
    (.weeks 1) rfl (by decide) (by decide) rfl (by decide) (by decide)
    (by decide) (by decide)).2.2

end YnabForecast

namespace YnabForecast

/-- The iterated one-month advance of the twice-monthly loop
(`current = current + relativedelta(months=1)`). -/
def monthHops : Nat → Date → Date
  | 0, d => d
  | n + 1, d => monthHops n (addMonths d 1)

theorem monthHops_monthIdx {c : Date} (hm1 : 1 ≤ c.month)
    (hm2 : c.month ≤ 12) (n : Nat) :
    (monthHops n c).year * 12 + (monthHops n c).month =
        c.year * 12 + c.month + n ∧
      1 ≤ (monthHops n c).month ∧ (monthHops n c).month ≤ 12 := by
  induction n generalizing c with
  | zero => exact ⟨rfl, hm1, hm2⟩
  | succ k ih =>
    have hb := addMonths_month_bounds c 1
    have hidx := addMonths_monthIdx hm1 1
    have h2 := ih hb.1 hb.2
    simp only [monthHops]
    omega

/-- C10: projection always terminates: every offset the step lookup
returns advances any valid date strictly; the twice-monthly loop advances
its month index by exactly one per iteration; and both walking loops reach
a date beyond the horizon after finitely many steps. -/
theorem C10_projection_terminates :
    (∀ (f : String) (step : CalendarOffset),
      get_frequency_step f = some step →
      ∀ d : Date, d.valid → d < addOffset d step)
  ∧ (∀ d : Date, 1 ≤ d.month →
      (addMonths d 1).year * 12 + (addMonths d 1).month =
        d.year * 12 + d.month + 1)
  ∧ (∀ (f : String) (step : CalendarOffset),
      get_frequency_step f = some step →
      ∀ d horizon_date : Date, d.valid → horizon_date.valid →
        ∃ n : Nat, ¬ iterOff step n d ≤ horizon_date)
  ∧ (∀ start_date horizon_date : Date,
      1 ≤ start_date.month → start_date.month ≤ 12 →
      1 ≤ horizon_date.month →
      ∃ n : Nat,
        ¬ monthHops n (Date.mk start_date.year start_date.month 1) ≤
          horizon_date) := by
  refine ⟨?_, ?_, ?_, ?_⟩
  · intro f step hstep d hd
    exact lt_addOffset hd (get_frequency_step_pos hstep)
  · intro d hm
    exact addMonths_monthIdx hm 1
  · intro f step hstep d horizon_date hd hh
    have hp := get_frequency_step_pos hstep
    refine ⟨dateScalar horizon_date + 1, ?_⟩
    intro hle
    have h1 := dateScalar_iterOff hd hp (dateScalar horizon_date + 1)
    have h2 := dateScalar_le (iterOff_valid hd step (dateScalar horizon_date + 1))
      hh hle
    omega
  · intro start_date horizon_date hm1 hm2 hhm
    refine ⟨horizon_date.year * 12 + horizon_date.month + 1, ?_⟩
    intro hle
    have hidx := @monthHops_monthIdx (Date.mk start_date.year start_date.month 1)
      (by simpa) (by simpa) (horizon_date.year * 12 + horizon_date.month + 1)
    have hmono : (monthHops (horizon_date.year * 12 + horizon_date.month + 1)
          (Date.mk start_date.year start_date.month 1)).year * 12 +
        (monthHops (horizon_date.year * 12 + horizon_date.month + 1)
          (Date.mk start_date.year start_date.month 1)).month ≤
        horizon_date.year * 12 + horizon_date.month := by
      rcases hle with h | h
      · simp only [dateLt] at h
        omega
      · rw [h]
    simp only [year_mk, month_mk] at hidx
    omega

/-- Witness for C10: the weekly walk from 2024-01-01 leaves any horizon,
here 2024-03-01, after finitely many steps. -/
theorem C10_projection_terminates_witness :
    ∃ n : Nat, ¬ iterOff (.weeks 1) n ⟨2024, 1, 1⟩ ≤ ⟨2024, 3, 1⟩ :=
  C10_projection_terminates.2.2.1 "weekly" (.weeks 1) (by decide)
    ⟨2024, 1, 1⟩ ⟨2024, 3, 1⟩ (by decide) (by decide)

end YnabForecast

namespace YnabForecast

def digitChars : List Char :=
  ['0', '1', '2', '3', '4', '5', '6', '7', '8', '9']

theorem digChar_mem_digitChars (k : Nat) : digChar k ∈ digitChars := by
  unfold digChar
  split <;> decide

theorem digVal_digChar {k : Nat} (h : k < 10) : digVal (digChar k) = k := by
  interval_cases k <;> rfl

/-- Reading a digit string back as a number. -/
def decVal (cs : List Char) : Nat :=
  cs.foldl (fun a c => a * 10 + digVal c) 0

theorem decVal_aux (xs : List Char) (c : Char) (i : Nat) :
    (xs ++ [c]).foldl (fun a c2 => a * 10 + digVal c2) i =
      (xs.foldl (fun a c2 => a * 10 + digVal c2) i) * 10 + digVal c := by
  rw [List.foldl_append]
  rfl

theorem natStrAux_spec :
    ∀ (fuel n : Nat), n < fuel →
      decVal (natStrAux fuel n) = n ∧ natStrAux fuel n ≠ [] ∧
        ∀ c ∈ natStrAux fuel n, c ∈ digitChars := by
  intro fuel
  induction fuel with
  | zero => intro n h; omega
  | succ f ih =>
    intro n h
    unfold natStrAux
    split
    · rename_i h10
      refine ⟨?_, by simp, ?_⟩
      · show 0 * 10 + digVal (digChar n) = n
        rw [digVal_digChar h10]
        omega
      · intro c hc
        rw [List.mem_singleton] at hc
        subst hc
        exact digChar_mem_digitChars n
    · rename_i h10
      have hdiv : n / 10 < f := by omega
      obtain ⟨hval, hne, hdig⟩ := ih (n / 10) hdiv
      refine ⟨?_, by simp, ?_⟩
      · show decVal (natStrAux f (n / 10) ++ [digChar (n % 10)]) = n
        unfold decVal
        rw [decVal_aux]
        have : digVal (digChar (n % 10)) = n % 10 :=
          digVal_digChar (by omega)
        unfold decVal at hval
        omega
      · intro c hc
        rw [List.mem_append] at hc
        rcases hc with hc | hc
        · exact hdig c hc
        · rw [List.mem_singleton] at hc
          subst hc
          exact digChar_mem_digitChars _

theorem decVal_natStr (n : Nat) : decVal (natStr n) = n :=
  (natStrAux_spec (n + 1) n (by omega)).1

theorem natStr_ne_nil (n : Nat) : natStr n ≠ [] :=
  (natStrAux_spec (n + 1) n (by omega)).2.1

theorem natStr_digits {n : Nat} {c : Char} (h : c ∈ natStr n) :
    c ∈ digitChars :=
  (natStrAux_spec (n + 1) n (by omega)).2.2 c h

theorem natStr_inj {m n : Nat} (h : natStr m = natStr n) : m = n := by
  have := decVal_natStr m
  rw [h, decVal_natStr] at this
  omega

theorem bar_not_mem_natStr (n : Nat) : ('|' : Char) ∉ natStr n := by
  intro h
  have := natStr_digits h
  simp [digitChars] at this

theorem dash_not_mem_natStr (n : Nat) : ('-' : Char) ∉ natStr n := by
  intro h
  have := natStr_digits h
  simp [digitChars] at this

theorem bar_not_mem_intStr (a : Int) : ('|' : Char) ∉ intStr a := by
  unfold intStr
  split
  · intro h
    rcases List.mem_cons.mp h with h2 | h2
    · exact absurd h2 (by decide)
    · exact bar_not_mem_natStr _ h2
  · exact bar_not_mem_natStr _

theorem intStr_inj {a b : Int} (h : intStr a = intStr b) : a = b := by
  unfold intStr at h
  split at h <;> split at h
  · rename_i ha hb
    rw [List.cons.injEq] at h
    have := natStr_inj h.2
    omega
  · rename_i ha hb
    exfalso
    refine dash_not_mem_natStr b.natAbs ?_
    rw [← h]
    exact List.mem_cons_self _ _
  · rename_i ha hb
    exfalso
    refine dash_not_mem_natStr a.natAbs ?_
    rw [h]
    exact List.mem_cons_self _ _
  · rename_i ha hb
    have := natStr_inj h
    omega

end YnabForecast

namespace YnabForecast

/-- Splitting at the last separator: when the separator does not occur in
either suffix, `p1 ++ c :: s1 = p2 ++ c :: s2` forces `p1 = p2` and
`s1 = s2`. -/
theorem append_sep_inj {c : Char} :
    ∀ {p1 p2 s1 s2 : List Char}, c ∉ s1 → c ∉ s2 →
      p1 ++ c :: s1 = p2 ++ c :: s2 → p1 = p2 ∧ s1 = s2 := by
  intro p1
  induction p1 with
  | nil =>
    intro p2 s1 s2 hn1 hn2 h
    cases p2 with
    | nil =>
      rw [List.nil_append, List.nil_append, List.cons.injEq] at h
      exact ⟨rfl, h.2⟩
    | cons q qs =>
      rw [List.nil_append, List.cons_append, List.cons.injEq] at h
      exfalso
      refine hn1 ?_
      rw [h.2]
      exact List.mem_append_right _ (List.mem_cons_self _ _)
  | cons p ps ih =>
    intro p2 s1 s2 hn1 hn2 h
    cases p2 with
    | nil =>
      rw [List.nil_append, List.cons_append, List.cons.injEq] at h
      exfalso
      refine hn2 ?_
      rw [← h.2]
      exact List.mem_append_right _ (List.mem_cons_self _ _)
    | cons q qs =>
      rw [List.cons_append, List.cons_append, List.cons.injEq] at h
      obtain ⟨rfl, h2⟩ := h
      obtain ⟨rfl, rfl⟩ := ih hn1 hn2 h2
      exact ⟨rfl, rfl⟩

theorem pad4_inj {m n : Nat} (hm : m ≤ 9999) (hn : n ≤ 9999)
    (h : pad4 m = pad4 n) : m = n := by
  unfold pad4 at h
  simp only [List.cons.injEq, and_true] at h
  obtain ⟨h1, h2, h3, h4⟩ := h
  have e1 := congrArg digVal h1
  have e2 := congrArg digVal h2
  have e3 := congrArg digVal h3
  have e4 := congrArg digVal h4
  rw [digVal_digChar (Nat.mod_lt _ (by omega)),
    digVal_digChar (Nat.mod_lt _ (by omega))] at e1 e2 e3 e4
  omega

theorem pad2_inj {m n : Nat} (hm : m ≤ 99) (hn : n ≤ 99)
    (h : pad2 m = pad2 n) : m = n := by
  unfold pad2 at h
  simp only [List.cons.injEq, and_true] at h
  obtain ⟨h1, h2⟩ := h
  have e1 := congrArg digVal h1
  have e2 := congrArg digVal h2
  rw [digVal_digChar (Nat.mod_lt _ (by omega)),
    digVal_digChar (Nat.mod_lt _ (by omega))] at e1 e2
  omega

/-- The zero-padded ISO rendering is injective on dates Python can hold. -/
theorem dateAsStr_inj {d1 d2 : Date}
    (hy1 : d1.year ≤ 9999) (hm1 : d1.month ≤ 99) (hd1 : d1.day ≤ 99)
    (hy2 : d2.year ≤ 9999) (hm2 : d2.month ≤ 99) (hd2 : d2.day ≤ 99)
    (h : dateAsStr d1 = dateAsStr d2) : d1 = d2 := by
  unfold dateAsStr pad4 pad2 at h
  simp only [List.cons_append, List.nil_append, List.cons.injEq,
    and_true] at h
  rw [Date.eq_iff]
  refine ⟨?_, ?_, ?_⟩
  · refine pad4_inj hy1 hy2 ?_
    unfold pad4
    simp only [List.cons.injEq, and_true]
    exact ⟨h.1, h.2.1, h.2.2.1, h.2.2.2.1⟩
  · refine pad2_inj hm1 hm2 ?_
    unfold pad2
    simp only [List.cons.injEq, and_true]
    exact ⟨h.2.2.2.2.2.1, h.2.2.2.2.2.2.1⟩
  · refine pad2_inj hd1 hd2 ?_
    unfold pad2
    simp only [List.cons.injEq, and_true]
    exact ⟨h.2.2.2.2.2.2.2.2.1, h.2.2.2.2.2.2.2.2.2⟩

/-- `make_signature` is injective for Python-representable dates: the
fixed-width, zero-padded date prefix and the separator-free integer suffix
make the signature collision-free even when the payee contains `|`. -/
theorem make_signature_inj {dt1 dt2 : Date} {p1 p2 : String} {a1 a2 : Int}
    (hy1 : dt1.year ≤ 9999) (hm1 : dt1.month ≤ 99) (hd1 : dt1.day ≤ 99)
    (hy2 : dt2.year ≤ 9999) (hm2 : dt2.month ≤ 99) (hd2 : dt2.day ≤ 99) :
    make_signature dt1 p1 a1 = make_signature dt2 p2 a2 ↔
      (dt1 = dt2 ∧ p1 = p2 ∧ a1 = a2) := by
  constructor
  · intro h
    unfold make_signature at h
    have hdata := congrArg String.data h
    simp only at hdata
    unfold dateAsStr pad4 pad2 at hdata
    simp only [List.cons_append, List.nil_append, List.cons.injEq] at hdata
    obtain ⟨e1, e2, e3, e4, -, e5, e6, -, e7, e8, -, erest⟩ := hdata
    have hdate : dt1 = dt2 := by
      rw [Date.eq_iff]
      refine ⟨pad4_inj hy1 hy2 ?_, pad2_inj hm1 hm2 ?_, pad2_inj hd1 hd2 ?_⟩
      · unfold pad4
        simp only [List.cons.injEq, and_true]
        exact ⟨e1, e2, e3, e4⟩
      · unfold pad2
        simp only [List.cons.injEq, and_true]
        exact ⟨e5, e6⟩
      · unfold pad2
        simp only [List.cons.injEq, and_true]
        exact ⟨e7, e8⟩
    obtain ⟨hp, ha⟩ := append_sep_inj (bar_not_mem_intStr a1)
      (bar_not_mem_intStr a2) erest
    refine ⟨hdate, ?_, intStr_inj ha⟩
    cases p1
    cases p2
    exact congrArg String.mk hp
  · rintro ⟨rfl, rfl, rfl⟩
    rfl

/-- C7: two forecast records have equal signatures exactly when their
(occurrence date, payee label, signed amount) triples are equal — memo,
flag, and category never enter the signature, and payees containing the
`|` separator cause no collisions. -/
theorem C7_signature_identity (e1 e2 : ForecastEntry)
    (hy1 : e1.date.year ≤ 9999) (hm1 : e1.date.month ≤ 99)
    (hd1 : e1.date.day ≤ 99)
    (hy2 : e2.date.year ≤ 9999) (hm2 : e2.date.month ≤ 99)
    (hd2 : e2.date.day ≤ 99) :
    sigOfDesired e1 = sigOfDesired e2 ↔
      (e1.date = e2.date ∧ e1.payee_name = e2.payee_name ∧
        e1.amount = e2.amount) :=
  make_signature_inj hy1 hm1 hd1 hy2 hm2 hd2

/-- Witness for C7: two records whose payee contains the separator and
whose memos and categories differ still share a signature, because their
(date, payee, amount) triples coincide. -/
theorem C7_signature_identity_witness :
    sigOfDesired
        { date := ⟨2024, 1, 7⟩, payee_name := "A|B", amount := -5,
          account_id := "x", category_id := some "c1", memo := "m1",
          flag_color := none } =
      sigOfDesired
        { date := ⟨2024, 1, 7⟩, payee_name := "A|B", amount := -5,
          account_id := "y", category_id := some "c2", memo := "m2",
          flag_color := some "red" } :=
  (C7_signature_identity _ _ (by decide) (by decide) (by decide) (by decide)
    (by decide) (by decide)).mpr ⟨rfl, rfl, rfl⟩

end YnabForecast
